import Mathlib

/-!
# Verification of the face-tracking trajectory core (`services/face_tracking.py`)

Shallow embedding of the numerical core of the repository's face-tracking
pipeline.  Python floats are modelled as exact rationals (`ℚ`); Python's
`round(x, n)` and `"%.nf"` formatting are modelled by round-half-to-even at
`n` decimal digits; a `float | None` is `Option ℚ`; a Python function that
may fail to return (recursion overflow) is modelled with explicit fuel and
an `Option` result, `none` standing for the raised `RecursionError`.

Functions are translated one-to-one from the source:
* `Segment` / `CropKeyframe`            — the dataclasses;
* `smooth_trajectory`                   — `_smooth_trajectory` (EMA + gap fill + speed clamp);
* `point_line_dist_sq` / `rdp`          — `_point_line_dist` / `_rdp` (distances squared,
                                          which preserves every comparison of the
                                          non-negative distances the code compares);
* `segOffset` / `map_to_output_timeline`— `_map_to_output_timeline`;
* `mkSegs` / `nestEval` / `crop_x_eval` — `_build_crop_x_expr`, embedded as the
                                          evaluation semantics of the synthesized
                                          FFmpeg expression (nested `if(lt(t,..))`
                                          branches, clamp, even-pixel truncation),
                                          with the same decimal formatting of the
                                          embedded constants;
* `analyze_face_positions`              — the top-level `try/except` wrapper.
-/

namespace FaceTracking

/-- Round a rational to the nearest integer, ties to even
(Python's rounding mode for `round` and string formatting). -/
def rndHalfEven (q : ℚ) : ℤ :=
  let n : ℤ := ⌊q⌋
  if 2 * q < 2 * n + 1 then n
  else if 2 * n + 1 < 2 * q then n + 1
  else if Even n then n else n + 1

/-- Python `round(q, d)` / `"%.df" % q` on an exact rational value. -/
def roundTo (d : ℕ) (q : ℚ) : ℚ :=
  (rndHalfEven (q * 10 ^ d) : ℚ) / 10 ^ d

/-- `video_engine.Segment` dataclass: a trimmed source interval.
(The Python attribute `end` is `stop` here; `end` is reserved in Lean.) -/
structure Segment where
  start : ℚ
  stop : ℚ
  deriving DecidableEq, Repr

/-- `Segment.duration` property: `end - start`. -/
def Segment.duration (s : Segment) : ℚ := s.stop - s.start

instance : Inhabited Segment := ⟨⟨0, 0⟩⟩

/-- `CropKeyframe` dataclass: `(time on output timeline, normalized face x)`. -/
structure CropKeyframe where
  time : ℚ
  x_norm : ℚ
  deriving DecidableEq, Repr

instance : Inhabited CropKeyframe := ⟨⟨0, 0⟩⟩

/-! ## 4. `_smooth_trajectory`: EMA smoothing with gap filling and speed clamping -/

/-- Forward gap-fill pass of `_smooth_trajectory` (lines 184-190): scanning
left to right, a `none` entry is replaced by the last value seen, if any. -/
def ffill (last : Option ℚ) : List (Option ℚ) → List (Option ℚ)
  | [] => []
  | some x :: rest => some x :: ffill (some x) rest
  | none :: rest =>
      match last with
      | some l => some l :: ffill (some l) rest
      | none => none :: ffill none rest

/-- One EMA-plus-clamp step of `_smooth_trajectory` (lines 207-212):
`new = prev + alpha*(target - prev)`, then if `|new - prev| > max_speed`
the step is replaced by `±max_speed`. -/
def emaStep (alpha max_speed prev target : ℚ) : ℚ :=
  let new := prev + alpha * (target - prev)
  let delta := new - prev
  if |delta| > max_speed then
    prev + max_speed * (if delta > 0 then 1 else -1)
  else new

/-- The EMA loop of `_smooth_trajectory` (lines 205-213), fed the values
after gap filling; `prev` is the last appended smoothed value. -/
def emaGo (alpha max_speed prev : ℚ) : List ℚ → List ℚ
  | [] => []
  | t :: rest =>
      let n := emaStep alpha max_speed prev t
      n :: emaGo alpha max_speed n rest

/-- Lines 205-213 as a whole: `smoothed = [filled[0]]` then the loop over
the remaining filled values. -/
def emaPass (alpha max_speed : ℚ) : List ℚ → List ℚ
  | [] => []
  | h :: rest => h :: emaGo alpha max_speed h rest

/-- `_smooth_trajectory(positions, alpha, max_speed=0.05)`:
forward fill, backward fill (a forward fill of the reversed list),
all-`None` fallback to `0.5`, then EMA with the speed clamp.
After the two fill passes either no entry is `none` or all are, so the
`getD 0` default used to strip the `Option` is never read. -/
def smooth_trajectory (positions : List (Option ℚ)) (alpha : ℚ)
    (max_speed : ℚ := 1/20) : List ℚ :=
  if positions = [] then []
  else
    let filled₁ := ffill none positions
    let filled₂ := (ffill none filled₁.reverse).reverse
    if filled₂.all (·.isNone) then
      List.replicate positions.length (1/2)
    else
      emaPass alpha max_speed (filled₂.map (fun o => o.getD 0))

/-! ## 5. `_point_line_dist` / `_rdp`: Ramer-Douglas-Peucker simplification

The Python code compares only non-negative distances (`math.hypot` results
and `epsilon` when `epsilon ≥ 0`), so we carry distances *squared*, which
keeps every value rational and preserves each comparison exactly; the one
comparison against a possibly negative `epsilon` (`max_dist > epsilon`,
always true for `epsilon < 0`) is translated sign-aware in `rdpFuel`. -/

/-- A trajectory point `(t, x)`. -/
abbrev Pt := ℚ × ℚ

/-- Square of `_point_line_dist(px, py, ax, ay, bx, by)` (lines 222-233):
distance from `p` to the closed segment `a→b`, with the code's degenerate
branch when the squared segment length is below `1e-12`. -/
def point_line_dist_sq (px py ax ay bx by' : ℚ) : ℚ :=
  let dx := bx - ax
  let dy := by' - ay
  let len_sq := dx * dx + dy * dy
  if len_sq < 1 / 10 ^ 12 then
    (px - ax) ^ 2 + (py - ay) ^ 2
  else
    let t := max 0 (min 1 (((px - ax) * dx + (py - ay) * dy) / len_sq))
    (px - (ax + t * dx)) ^ 2 + (py - (ay + t * dy)) ^ 2

/-- Body of the scan loop of `_rdp` (lines 246-253): fold over the
remaining interior indices, tracking `(max_dist², max_idx)` with the
code's strict `d > max_dist` update. -/
def rdpScanGo (points : List Pt) (a b : Pt) :
    List ℕ → ℚ × ℕ → ℚ × ℕ
  | [], acc => acc
  | i :: rest, acc =>
      let p := points.getD i (0, 0)
      let d := point_line_dist_sq p.1 p.2 a.1 a.2 b.1 b.2
      rdpScanGo points a b rest (if d > acc.1 then (d, i) else acc)

/-- The scan loop of `_rdp` over `range(1, len(points) - 1)`, i.e. the
interior indices `1 .. len-2`, starting from `(0.0, 0)`. -/
def rdpScan (points : List Pt) (a b : Pt) : ℚ × ℕ :=
  rdpScanGo points a b (List.range' 1 (points.length - 2)) (0, 0)

/-- `_rdp(points, epsilon)` (lines 236-260) with explicit recursion fuel:
`none` models the `RecursionError` the Python raises when the recursion
does not terminate (possible only for `epsilon < 0`).  The recursive
branch condition `max_dist > epsilon` is translated on squares:
for `epsilon < 0` it always holds, otherwise it is `max_dist² > epsilon²`. -/
def rdpFuel : ℕ → List Pt → ℚ → Option (List Pt)
  | 0, _, _ => none
  | n + 1, points, epsilon =>
      if points.length ≤ 2 then some points
      else
        let a := points.headD (0, 0)
        let b := points.getLastD (0, 0)
        let s := rdpScan points a b
        if epsilon < 0 ∨ s.1 > epsilon ^ 2 then
          match rdpFuel n (points.take (s.2 + 1)) epsilon,
                rdpFuel n (points.drop s.2) epsilon with
          | some left, some right => some (left.dropLast ++ right)
          | _, _ => none
        else
          some [a, b]

/-- `_rdp` entry point: fuel `length + 1` is enough whenever the Python
recursion terminates (it always does for `epsilon ≥ 0`, proved below). -/
def rdp (points : List Pt) (epsilon : ℚ) : Option (List Pt) :=
  rdpFuel (points.length + 1) points epsilon

/-- Squared distance from a point to the polyline through `poly`
(minimum over the squared distances to its consecutive edges; `0` when
`poly` has no edge).  Used to state the RDP deviation guarantee. -/
def distSqToPolyline (p : Pt) : List Pt → ℚ
  | [a, b] => point_line_dist_sq p.1 p.2 a.1 a.2 b.1 b.2
  | a :: b :: c :: rest =>
      min (point_line_dist_sq p.1 p.2 a.1 a.2 b.1 b.2)
        (distSqToPolyline p (b :: c :: rest))
  | _ => 0

/-! ## 6. `_map_to_output_timeline` -/

/-- The per-segment output offset computed at lines 281-283:
`max(0, sum(segments[j].duration for j < i) - i * fade_duration)`. -/
def segOffset (segments : List Segment) (fade_duration : ℚ) (i : ℕ) : ℚ :=
  max 0 (((segments.take i).map Segment.duration).sum - i * fade_duration)

/-- Lines 285-288 for one sample of segment `i`: `local_t = src_t - start`,
`out_t = (offset + local_t) / speed`, keyframe time `round(out_t, 4)`. -/
def outTime (segments : List Segment) (fade_duration speed : ℚ) (i : ℕ)
    (src_t : ℚ) : ℚ :=
  roundTo 4 ((segOffset segments fade_duration i
    + (src_t - (segments.getD i default).start)) / speed)

/-- The enumeration loop of `_map_to_output_timeline` (lines 279-288):
for segment `i`, each sample `(src_t, x_norm)` becomes the keyframe
`(outTime .. i src_t, x_norm)`.  Indexing past `segments` (an
`IndexError` in Python) reads the default segment; the claims below
always stay within bounds. -/
def mapLoop (segments : List Segment) (fade_duration speed : ℚ) :
    ℕ → List (List Pt) → List CropKeyframe
  | _, [] => []
  | i, data :: rest =>
      data.map (fun p =>
        ⟨outTime segments fade_duration speed i p.1, p.2⟩)
        ++ mapLoop segments fade_duration speed (i + 1) rest

/-- `_map_to_output_timeline(segment_data, segments, fade_duration, speed)`
(lines 267-291): build all keyframes, then sort by `time`
(`keyframes.sort(key=...)`, a stable sort, as is `mergeSort`). -/
def map_to_output_timeline (segment_data : List (List Pt))
    (segments : List Segment) (fade_duration speed : ℚ) : List CropKeyframe :=
  (mapLoop segments fade_duration speed 0 segment_data).mergeSort
    (fun k l => k.time ≤ l.time)

/-! ## 7. `_build_crop_x_expr`

The Python function emits an FFmpeg expression string; we embed the
*semantics* of the emitted expression (FFmpeg `if/lt/min/max/trunc` over
exact arithmetic), mirroring the builder's structure exactly: the decimal
formatting of each embedded constant (`%.4f`, `%.6f`, `%.3f`, `%.0f`), the
skipping of pairs closer than `0.001` in time, the nested
`if(lt(t,t_end), lerp, ...)` chain whose final branch holds the last
keyframe's value, and the outer `trunc(min(max(·,0),iw-crop_w)/2)*2`. -/

/-- FFmpeg `trunc`: truncation toward zero. -/
def ffTrunc (q : ℚ) : ℤ := if q < 0 then ⌈q⌉ else ⌊q⌋

/-- One emitted interpolation branch (line 329-331): the constants as
they appear in the string, i.e. after decimal formatting. -/
structure SegExpr where
  tEnd : ℚ  -- `%.3f` of the pair's right keyframe time, used in `lt(t, tEnd)`
  f0 : ℚ    -- `%.4f` of the left value
  df : ℚ    -- `%.6f` of the value difference
  t0 : ℚ    -- `%.3f` of the left time
  dt : ℚ    -- `%.3f` of the (unrounded-positive) time difference
  deriving DecidableEq, Repr

/-- The per-pair loop of `_build_crop_x_expr` (lines 321-331): one
`SegExpr` per consecutive keyframe pair, pairs with `t1 - t0 < 0.001`
skipped. -/
def mkSegs : List CropKeyframe → List SegExpr
  | k0 :: k1 :: rest =>
      if k1.time - k0.time < 1 / 1000 then mkSegs (k1 :: rest)
      else
        ⟨roundTo 3 k1.time, roundTo 4 k0.x_norm,
          roundTo 6 (k1.x_norm - k0.x_norm), roundTo 3 k0.time,
          roundTo 3 (k1.time - k0.time)⟩ :: mkSegs (k1 :: rest)
  | _ => []

/-- Value of the nested-`if` chain (lines 340-345) at time `t` for input
width `iw`, before the outer clamp: branches are tested in keyframe
order, the final branch holding `last_f*iw - half_cw`. -/
def nestEval : List SegExpr → ℚ → ℚ → ℚ → ℚ → ℚ
  | [], lastF, half_cw, _, iw => roundTo 4 lastF * iw - half_cw
  | s :: rest, lastF, half_cw, t, iw =>
      if t < s.tEnd then (s.f0 + s.df * (t - s.t0) / s.dt) * iw - half_cw
      else nestEval rest lastF half_cw t iw

/-- The outer wrapper of lines 316-317/336-337/348:
`trunc(min(max(v, 0), iw - crop_w)/2)*2`. -/
def clampEven (v iw : ℚ) (crop_w : ℕ) : ℚ :=
  (ffTrunc (min (max v 0) (iw - crop_w) / 2) : ℚ) * 2

/-- Semantics of the expression returned by
`_build_crop_x_expr(keyframes, crop_w)` (lines 298-348), as a function of
FFmpeg's `t` and `iw`: empty keyframes give the static centered crop
`(iw-crop_w)/2`; a single keyframe (or all pairs skipped) gives the
clamped constant; otherwise the nested piecewise-linear chain. -/
def crop_x_eval (keyframes : List CropKeyframe) (crop_w : ℕ) (t iw : ℚ) : ℚ :=
  let half_cw := roundTo 0 ((crop_w : ℚ) / 2)
  match keyframes with
  | [] => (iw - crop_w) / 2
  | [k] => clampEven (roundTo 4 k.x_norm * iw - half_cw) iw crop_w
  | k :: _ :: _ =>
      let segs := mkSegs keyframes
      if segs = [] then
        clampEven (roundTo 4 k.x_norm * iw - half_cw) iw crop_w
      else
        clampEven
          (nestEval segs (keyframes.getLastD default).x_norm half_cw t iw)
          iw crop_w

/-! ## Top-level `analyze_face_positions`

The public entry point wraps the blocking pipeline in one `try/except
Exception` (lines 491-498).  The pipeline body performs I/O (ffprobe,
FFmpeg pipes, MediaPipe), so it is modelled by its observable outcome: an
`Except` value, `.error` standing for any exception the body raises, and
the availability flag standing for the `_AVAILABLE` import guard. -/

/-- `CropTrajectory` dataclass (the expression component is modelled by
its evaluation semantics, see `crop_x_eval`). -/
structure CropTrajectory where
  keyframes : List CropKeyframe
  deriving DecidableEq, Repr

/-- `analyze_face_positions` (lines 466-498): returns `None` when
mediapipe is unavailable; otherwise returns the pipeline's result, any
raised exception converted to `None` by the top-level handler. -/
def analyze_face_positions (available : Bool)
    (pipeline : Except String (Option CropTrajectory)) :
    Option CropTrajectory :=
  if !available then none
  else
    match pipeline with
    | Except.ok r => r
    | Except.error _ => none

/-! ## Theorems -/

/-- Forward-filling an all-`none` list changes nothing. -/
lemma ffill_replicate_none (m : ℕ) :
    ffill none (List.replicate m none) = List.replicate m none := by
  induction m with
  | zero => rfl
  | succ k ih => simpa [List.replicate_succ, ffill] using ih

/-- C7: an all-`None` raw sample sequence smooths to a constant `0.5`
sequence of the same length, for every `alpha` and `max_speed`. -/
theorem smoother_all_none_centers (n : ℕ) (alpha max_speed : ℚ) :
    smooth_trajectory (List.replicate n none) alpha max_speed
      = List.replicate n (1/2) := by
  cases n with
  | zero => rfl
  | succ m =>
      simp [smooth_trajectory, ffill_replicate_none, List.reverse_replicate,
        List.all_eq_true, List.mem_replicate]

/-- C8: the public entry point converts every exception raised inside the
trajectory pipeline (modelled as an `Except.error` outcome of the wrapped
blocking body) to `None`, whether or not mediapipe is available; it never
re-raises. -/
theorem analyze_face_positions_catches (available : Bool) (e : String) :
    analyze_face_positions available (Except.error e) = none := by
  cases available <;> rfl

/-- C3: for keyframes `(0.0, 0.3)`, `(2.0, 0.7)` with `crop_w = 400` and
source width `1080`, the synthesized expression at `t = 1.0` interpolates
`face_x = 0.5`, the raw crop position is `0.5*1080 - 200 = 340`, and the
clamped, even-floored result is exactly `340`. -/
theorem crop_expr_example_eval :
    ((3:ℚ)/10 + ((7:ℚ)/10 - 3/10) * ((1:ℚ) - 0) / ((2:ℚ) - 0) = 1/2)
    ∧ ((1:ℚ)/2 * 1080 - 200 = 340)
    ∧ crop_x_eval [⟨0, 3/10⟩, ⟨2, 7/10⟩] 400 1 1080 = 340 := by
  refine ⟨by norm_num, by norm_num, ?_⟩
  norm_num [crop_x_eval, mkSegs, nestEval, clampEven, ffTrunc, roundTo,
    rndHalfEven]

/-- C1 counterexample: durations `[10, 1/2, 1]` are all positive and
`fade_duration = 1 ≥ 0`, yet `offset_1 = 9 > 8.5 = offset_2`: the offsets
are **not** non-decreasing when a segment is shorter than the fade (the
very situation the spec flags as an open input-validation gap). -/
theorem offset_monotone_cex :
    (∀ s ∈ [Segment.mk 0 10, Segment.mk 10 (21/2), Segment.mk (21/2) (23/2)],
      0 < s.duration)
    ∧ (0:ℚ) ≤ 1
    ∧ segOffset [Segment.mk 0 10, Segment.mk 10 (21/2),
        Segment.mk (21/2) (23/2)] 1 1 = 9
    ∧ segOffset [Segment.mk 0 10, Segment.mk 10 (21/2),
        Segment.mk (21/2) (23/2)] 1 2 = 17/2
    ∧ ¬ (9 : ℚ) ≤ 17/2 := by
  norm_num [Segment.duration, segOffset]

/-- C2 counterexample: a sample at source time `1/3` in the single segment
`[0, 1]` (offset `0`, speed `1`) is emitted at keyframe time
`0.3333 = round(1/3, 4)`, which is **not** equal to
`(offset + local_t) / speed = 1/3`. -/
theorem mapper_rounding_cex :
    map_to_output_timeline [[((1:ℚ)/3, 1/2)]] [Segment.mk 0 1] 0 1
      = [CropKeyframe.mk (3333/10000) (1/2)]
    ∧ ((3333:ℚ)/10000
        ≠ (segOffset [Segment.mk 0 1] 0 0 + ((1:ℚ)/3 - 0)) / 1) := by
  norm_num [map_to_output_timeline, mapLoop, outTime, segOffset, roundTo,
    rndHalfEven, List.mergeSort]

/-- C5 counterexample: with `max_speed = -1` (the claim quantifies over
*every* `max_speed`) the clamp inverts the step: input `[0, 1]` with
`alpha = 1` smooths to `[0, -1]`, a consecutive difference of `1 > -1`. -/
theorem smoother_step_bound_cex :
    smooth_trajectory [some 0, some 1] 1 (-1) = [0, -1]
    ∧ ¬ (|(-1 : ℚ) - 0| ≤ -1) := by
  refine ⟨?_, by norm_num [abs_le]⟩
  rw [smooth_trajectory, if_neg (by simp)]
  norm_num [ffill, emaPass, emaGo, emaStep, abs_le, lt_abs]

/-- C6 counterexample: for keyframes `(1.0, 0.5)`, `(2.0, 0.7)` with
`crop_w = 400`, `iw = 10000`, the expression at `t = 0` (before the first
keyframe) evaluates to `2800`, while at the first keyframe (`t = 1`,
`face_x = 0.5`) it evaluates to `4800`: before the first keyframe the
emitted expression linearly *extrapolates* the first pair instead of
holding the first keyframe's value constant. -/
theorem before_first_keyframe_cex :
    crop_x_eval [⟨1, 1/2⟩, ⟨2, 7/10⟩] 400 0 10000 = 2800
    ∧ crop_x_eval [⟨1, 1/2⟩, ⟨2, 7/10⟩] 400 1 10000 = 4800
    ∧ (2800 : ℚ) ≠ 4800 := by
  refine ⟨?_, ?_, by norm_num⟩ <;>
    norm_num [crop_x_eval, mkSegs, nestEval, clampEven, ffTrunc, roundTo,
      rndHalfEven]

/-- C9 counterexample: for `epsilon = -1` (the claim quantifies over
*every* epsilon) on the 3-point collinear input below, `_rdp` recurses on
an identical sublist forever — Python raises `RecursionError` — so no
simplified subsequence is returned at all (`none` in the fuel model,
independent of the fuel). -/
theorem rdp_negative_epsilon_cex :
    rdp [((0:ℚ), (0:ℚ)), (1, 0), (2, 0)] (-1) = none
    ∧ 2 ≤ ([((0:ℚ), (0:ℚ)), (1, 0), (2, 0)] : List Pt).length := by
  refine ⟨?_, by norm_num⟩
  norm_num [rdp, rdpFuel, rdpScan, rdpScanGo, point_line_dist_sq]

/-- C10 counterexample: with `alpha = 2` (the code nowhere restricts
`alpha` to `[0, 1]`) the EMA overshoots: inputs `49/50` and `1` lie in
`[0, 1]` but the smoothed output `51/50` does not, and the default speed
clamp `1/20` does not catch it. -/
theorem smoother_range_cex :
    (0 ≤ (49:ℚ)/50 ∧ (49:ℚ)/50 ≤ 1 ∧ 0 ≤ (1:ℚ) ∧ (1:ℚ) ≤ 1)
    ∧ smooth_trajectory [some (49/50), some 1] 2 (1/20) = [49/50, 51/50]
    ∧ ¬ ((51:ℚ)/50 ≤ 1) := by
  refine ⟨by norm_num, ?_, by norm_num⟩
  rw [smooth_trajectory, if_neg (by simp)]
  norm_num [ffill, emaPass, emaGo, emaStep, abs_le, lt_abs]

/-- Unfolding of `smooth_trajectory` with its `let`s resolved
(definitional). -/
lemma smooth_trajectory_eq (positions : List (Option ℚ)) (alpha ms : ℚ) :
    smooth_trajectory positions alpha ms =
      if positions = [] then []
      else if ((ffill none (ffill none positions).reverse).reverse.all
          (·.isNone)) then
        List.replicate positions.length (1/2)
      else
        emaPass alpha ms
          ((ffill none (ffill none positions).reverse).reverse.map
            (fun o => o.getD 0)) := rfl

/-- One EMA step never moves further than `max_speed` from `prev`,
provided `max_speed ≥ 0`. -/
lemma abs_emaStep_sub_le (alpha ms prev target : ℚ) (h : 0 ≤ ms) :
    |emaStep alpha ms prev target - prev| ≤ ms := by
  unfold emaStep
  dsimp only
  split_ifs with h1 h2
  · have he : prev + ms * 1 - prev = ms := by ring
    rw [he, abs_of_nonneg h]
  · have he : prev + ms * -1 - prev = -ms := by ring
    rw [he, abs_neg, abs_of_nonneg h]
  · exact le_of_not_lt h1

/-- Every chain step of the EMA loop obeys the speed clamp. -/
lemma chain'_emaGo (alpha ms : ℚ) (h : 0 ≤ ms) :
    ∀ (l : List ℚ) (prev : ℚ),
      List.Chain' (fun a b => |b - a| ≤ ms) (prev :: emaGo alpha ms prev l) := by
  intro l
  induction l with
  | nil => intro prev; simp [emaGo]
  | cons t r ih =>
      intro prev
      rw [emaGo]
      exact List.Chain'.cons (abs_emaStep_sub_le alpha ms prev t h) (ih _)

/-- The whole EMA pass is a `max_speed`-bounded chain. -/
lemma chain'_emaPass (alpha ms : ℚ) (h : 0 ≤ ms) (l : List ℚ) :
    List.Chain' (fun a b => |b - a| ≤ ms) (emaPass alpha ms l) := by
  cases l with
  | nil => simp [emaPass]
  | cons hd rest => exact chain'_emaGo alpha ms h rest hd

/-- A constant list is a chain for any reflexive-at-the-constant relation. -/
lemma chain'_replicate {R : ℚ → ℚ → Prop} (c : ℚ) (hc : R c c) :
    ∀ n : ℕ, List.Chain' R (List.replicate n c) := by
  intro n
  induction n with
  | zero => simp
  | succ m ih =>
      rw [List.replicate_succ]
      refine List.chain'_cons'.2 ⟨?_, ih⟩
      intro y hy
      cases m with
      | zero => simp at hy
      | succ k =>
          rw [List.replicate_succ] at hy
          simp only [List.head?_cons, Option.mem_def, Option.some.injEq] at hy
          exact hy ▸ hc

/-- C5 (amended: `max_speed ≥ 0`): any two consecutive values of the
smoothed output differ by at most `max_speed`, for every input sequence
and every `alpha`: each step is `prev + alpha*(target - prev)` clamped to
`±max_speed`. -/
theorem smoother_step_bound (positions : List (Option ℚ)) (alpha ms : ℚ)
    (h : 0 ≤ ms) :
    List.Chain' (fun a b => |b - a| ≤ ms)
      (smooth_trajectory positions alpha ms) := by
  rw [smooth_trajectory_eq]
  split_ifs with h1 h2
  · simp
  · exact chain'_replicate (R := fun a b => |b - a| ≤ ms) (1/2)
      (by simpa using h) _
  · exact chain'_emaPass alpha ms h _

/-- Witness for C5 at a concrete input. -/
theorem smoother_step_bound_witness :
    (0:ℚ) ≤ 1/20 ∧
      List.Chain' (fun a b => |b - a| ≤ (1/20 : ℚ))
        (smooth_trajectory [some 0, some 1] (3/20) (1/20)) :=
  ⟨by norm_num, smoother_step_bound [some 0, some 1] (3/20) (1/20) (by norm_num)⟩

/-- Values surviving a forward fill either occur in the input or are the
seed. -/
lemma ffill_mem : ∀ (l : List (Option ℚ)) (last : Option ℚ) (x : ℚ),
    some x ∈ ffill last l → some x ∈ l ∨ last = some x := by
  intro l
  induction l with
  | nil => intro last x hx; simp [ffill] at hx
  | cons o rest ih =>
      intro last x hx
      match o, last with
      | some v, _ =>
          rw [ffill] at hx
          rcases List.mem_cons.1 hx with h | h
          · exact Or.inl (by simp [h.symm])
          · rcases ih _ _ h with h' | h'
            · exact Or.inl (List.mem_cons_of_mem _ h')
            · exact Or.inl (by simp [Option.some.inj h'])
      | none, some l₀ =>
          rw [ffill] at hx
          rcases List.mem_cons.1 hx with h | h
          · exact Or.inr (by rw [h])
          · rcases ih _ _ h with h' | h'
            · exact Or.inl (List.mem_cons_of_mem _ h')
            · exact Or.inr h'
      | none, none =>
          rw [ffill] at hx
          rcases List.mem_cons.1 hx with h | h
          · exact absurd h (by simp)
          · rcases ih _ _ h with h' | h'
            · exact Or.inl (List.mem_cons_of_mem _ h')
            · exact absurd h' (by simp)

/-- One EMA step stays inside `[0, 1]` when `alpha ∈ [0, 1]`,
`max_speed ≥ 0` and both endpoints are inside `[0, 1]`. -/
lemma emaStep_mem_unit (alpha ms prev target : ℚ)
    (ha0 : 0 ≤ alpha) (ha1 : alpha ≤ 1) (hm : 0 ≤ ms)
    (hp0 : 0 ≤ prev) (hp1 : prev ≤ 1) (ht0 : 0 ≤ target) (ht1 : target ≤ 1) :
    0 ≤ emaStep alpha ms prev target ∧ emaStep alpha ms prev target ≤ 1 := by
  have hnew0 : 0 ≤ prev + alpha * (target - prev) := by nlinarith
  have hnew1 : prev + alpha * (target - prev) ≤ 1 := by nlinarith
  unfold emaStep
  dsimp only
  split_ifs with h1 h2
  · have hd : alpha * (target - prev) > 0 := by
      simpa using h2
    rw [abs_of_pos (by simpa using h2)] at h1
    constructor
    · nlinarith
    · simp only [mul_one]
      nlinarith
  · have hd : alpha * (target - prev) ≤ 0 := by
      simpa using h2
    rw [abs_of_nonpos (by simpa using hd)] at h1
    constructor
    · rw [mul_neg_one]
      nlinarith
    · rw [mul_neg_one]
      nlinarith
  · simpa using ⟨hnew0, hnew1⟩

/-- The EMA loop preserves the `[0, 1]` range invariant. -/
lemma emaGo_mem_unit (alpha ms : ℚ)
    (ha0 : 0 ≤ alpha) (ha1 : alpha ≤ 1) (hm : 0 ≤ ms) :
    ∀ (l : List ℚ) (prev : ℚ), 0 ≤ prev → prev ≤ 1 →
      (∀ t ∈ l, 0 ≤ t ∧ t ≤ 1) →
      ∀ y ∈ emaGo alpha ms prev l, 0 ≤ y ∧ y ≤ 1 := by
  intro l
  induction l with
  | nil => intro prev _ _ _ y hy; simp [emaGo] at hy
  | cons t r ih =>
      intro prev hp0 hp1 hl y hy
      rw [emaGo] at hy
      have ht := hl t (List.mem_cons_self t r)
      have hstep := emaStep_mem_unit alpha ms prev t ha0 ha1 hm hp0 hp1 ht.1 ht.2
      rcases List.mem_cons.1 hy with h | h
      · exact h ▸ hstep
      · exact ih _ hstep.1 hstep.2 (fun u hu => hl u (List.mem_cons_of_mem _ hu)) y h

/-- The whole EMA pass preserves the `[0, 1]` range invariant. -/
lemma emaPass_mem_unit (alpha ms : ℚ)
    (ha0 : 0 ≤ alpha) (ha1 : alpha ≤ 1) (hm : 0 ≤ ms) (l : List ℚ)
    (hl : ∀ t ∈ l, 0 ≤ t ∧ t ≤ 1) :
    ∀ y ∈ emaPass alpha ms l, 0 ≤ y ∧ y ≤ 1 := by
  cases l with
  | nil => intro y hy; simp [emaPass] at hy
  | cons hd rest =>
      intro y hy
      rw [emaPass] at hy
      have hhd := hl hd (List.mem_cons_self hd rest)
      rcases List.mem_cons.1 hy with h | h
      · exact h ▸ hhd
      · exact emaGo_mem_unit alpha ms ha0 ha1 hm rest hd hhd.1 hhd.2
          (fun u hu => hl u (List.mem_cons_of_mem _ hu)) y h

/-- C10 (amended: `0 ≤ alpha ≤ 1` and `max_speed ≥ 0`, satisfied by the
defaults `0.15` and `0.05`): if every detected position lies in `[0, 1]`
then every smoothed output value lies in `[0, 1]`. -/
theorem smoother_range (positions : List (Option ℚ)) (alpha ms : ℚ)
    (ha0 : 0 ≤ alpha) (ha1 : alpha ≤ 1) (hm : 0 ≤ ms)
    (hin : ∀ x : ℚ, some x ∈ positions → 0 ≤ x ∧ x ≤ 1) :
    ∀ y ∈ smooth_trajectory positions alpha ms, 0 ≤ y ∧ y ≤ 1 := by
  have hfilled : ∀ x : ℚ,
      some x ∈ (ffill none (ffill none positions).reverse).reverse → 0 ≤ x ∧ x ≤ 1 := by
    intro x hx
    rw [List.mem_reverse] at hx
    rcases ffill_mem _ _ _ hx with h | h
    · rw [List.mem_reverse] at h
      rcases ffill_mem _ _ _ h with h' | h'
      · exact hin x h'
      · exact absurd h' (by simp)
    · exact absurd h (by simp)
  have hvals : ∀ y ∈ (ffill none (ffill none positions).reverse).reverse.map
      (fun o => o.getD 0), 0 ≤ y ∧ y ≤ 1 := by
    intro y hy
    rcases List.mem_map.1 hy with ⟨o, ho, rfl⟩
    cases o with
    | none => simp
    | some v => exact Option.getD_some ▸ hfilled v ho
  rw [smooth_trajectory_eq]
  split_ifs with h1 h2
  · simp
  · intro y hy
    rw [List.eq_of_mem_replicate hy]
    norm_num
  · exact emaPass_mem_unit alpha ms ha0 ha1 hm _ hvals

/-- Witness for C10 at a concrete input. -/
theorem smoother_range_witness :
    ((0:ℚ) ≤ 3/20 ∧ (3:ℚ)/20 ≤ 1 ∧ (0:ℚ) ≤ 1/20) ∧
      ∀ y ∈ smooth_trajectory [some (1/2)] (3/20) (1/20), 0 ≤ y ∧ y ≤ 1 :=
  ⟨⟨by norm_num, by norm_num, by norm_num⟩,
    smoother_range [some (1/2)] (3/20) (1/20) (by norm_num) (by norm_num)
      (by norm_num)
      (by intro x hx; simp only [List.mem_singleton, Option.some.injEq] at hx;
          subst hx; norm_num)⟩

/-- Adding one segment to the prefix adds its duration to the cumulative
sum. -/
lemma sum_take_succ_duration (segments : List Segment) (j : ℕ)
    (hj : j < segments.length) :
    ((segments.take (j+1)).map Segment.duration).sum
      = ((segments.take j).map Segment.duration).sum
        + (segments.get ⟨j, hj⟩).duration := by
  have hj' : j < (segments.map Segment.duration).length := by simpa using hj
  rw [List.map_take, List.map_take, List.sum_take_succ _ j hj']
  simp

/-- One step of offset monotonicity: needs `fade ≤ duration` of the
segment between the two offsets. -/
lemma segOffset_step (segments : List Segment) (fade : ℚ) (j : ℕ)
    (hj : j < segments.length)
    (h : fade ≤ (segments.get ⟨j, hj⟩).duration) :
    segOffset segments fade j ≤ segOffset segments fade (j+1) := by
  unfold segOffset
  refine max_le_max (le_refl 0) ?_
  rw [sum_take_succ_duration segments j hj]
  push_cast
  linarith

/-- C1 (amended: non-decreasing additionally requires
`fade_duration ≤ duration_j` for every segment, e.g. when the fade is no
longer than each segment; the formula and non-negativity hold as
claimed): the Output Mapper's offset is
`max(0, Σ_{j<k} duration_j - k*fade)`, is never negative, and under the
extra hypothesis is non-decreasing in the segment index. -/
theorem offset_formula_nonneg_monotone (segments : List Segment)
    (fade : ℚ) (k l : ℕ)
    (hfade : 0 ≤ fade)
    (hdur : ∀ s ∈ segments, 0 < s.duration)
    (hge : ∀ s ∈ segments, fade ≤ s.duration)
    (hkl : k ≤ l) (hl : l < segments.length) :
    segOffset segments fade k
        = max 0 (((segments.take k).map Segment.duration).sum - k * fade)
      ∧ 0 ≤ segOffset segments fade k
      ∧ segOffset segments fade k ≤ segOffset segments fade l := by
  refine ⟨rfl, le_max_left 0 _, ?_⟩
  clear hfade hdur
  induction l with
  | zero => rw [Nat.le_zero.1 hkl]
  | succ m ih =>
      rcases Nat.of_le_succ hkl with h | h
      · have hm : m < segments.length := Nat.lt_of_succ_lt hl
        refine le_trans (ih h hm) ?_
        exact segOffset_step segments fade m hm
          (hge _ (segments.get_mem m hm))
      · rw [h]

/-- Witness for C1 at a concrete input. -/
theorem offset_formula_witness :
    ((0:ℚ) ≤ 1 ∧ 0 ≤ 1) ∧
      segOffset [Segment.mk 0 2, Segment.mk 2 5] 1 0
        ≤ segOffset [Segment.mk 0 2, Segment.mk 2 5] 1 1 :=
  ⟨⟨by norm_num, by norm_num⟩,
    (offset_formula_nonneg_monotone [Segment.mk 0 2, Segment.mk 2 5] 1 0 1
      (by norm_num)
      (by intro s hs; fin_cases hs <;> norm_num [Segment.duration])
      (by intro s hs; fin_cases hs <;> norm_num [Segment.duration])
      (by norm_num) (by norm_num)).2.2⟩

/-- Each sample of each segment contributes its keyframe to the mapper's
loop output (before sorting), at index-shifted position. -/
lemma mapLoop_mem (segments : List Segment) (fade speed : ℚ) :
    ∀ (data : List (List Pt)) (start i : ℕ) (p : Pt),
      i < data.length → p ∈ data.getD i [] →
      CropKeyframe.mk (outTime segments fade speed (start + i) p.1) p.2
        ∈ mapLoop segments fade speed start data := by
  intro data
  induction data with
  | nil => intro start i p hi _; simp at hi
  | cons d rest ih =>
      intro start i p hi hp
      rw [mapLoop]
      cases i with
      | zero =>
          refine List.mem_append_left _ ?_
          simp only [List.getD_cons_zero] at hp
          exact List.mem_map.2 ⟨p, hp, by rw [Nat.add_zero]⟩
      | succ j =>
          refine List.mem_append_right _ ?_
          have hrec := ih (start + 1) j p (Nat.lt_of_succ_lt_succ hi)
            (by simpa using hp)
          have heq : start + 1 + j = start + (j + 1) := by omega
          rw [← heq]
          exact hrec

/-- The first segment's offset is `0` whatever the fade. -/
lemma segOffset_zero (segments : List Segment) (fade : ℚ) :
    segOffset segments fade 0 = 0 := by
  simp [segOffset]

/-- C2 (amended: the emitted keyframe time is
`round((offset_k + local_t)/speed, 4)`; the identity / halving
specializations hold for local times exact at 4 decimals): every sample
`(src_t, x)` of segment `i` yields the keyframe
`(round((offset_i + (src_t - start_i))/speed, 4), x)` in the mapper
output, and for the first segment with `speed = 1` (resp. `speed = 2`)
the time is exactly `local_t` (resp. `local_t / 2`) whenever that value
is exact at 4 decimals. -/
theorem mapper_time_formula (segment_data : List (List Pt))
    (segments : List Segment) (fade speed : ℚ) (i : ℕ) (p : Pt)
    (hi : i < segment_data.length) (hp : p ∈ segment_data.getD i []) :
    (CropKeyframe.mk (outTime segments fade speed i p.1) p.2
        ∈ map_to_output_timeline segment_data segments fade speed)
    ∧ outTime segments fade speed i p.1
        = roundTo 4 ((segOffset segments fade i
            + (p.1 - (segments.getD i default).start)) / speed)
    ∧ (i = 0 → speed = 1 →
        roundTo 4 (p.1 - (segments.getD 0 default).start)
          = p.1 - (segments.getD 0 default).start →
        outTime segments fade speed i p.1
          = p.1 - (segments.getD 0 default).start)
    ∧ (i = 0 → speed = 2 →
        roundTo 4 ((p.1 - (segments.getD 0 default).start) / 2)
          = (p.1 - (segments.getD 0 default).start) / 2 →
        outTime segments fade speed i p.1
          = (p.1 - (segments.getD 0 default).start) / 2) := by
  refine ⟨?_, rfl, ?_, ?_⟩
  · rw [map_to_output_timeline]
    rw [List.mem_mergeSort]
    have := mapLoop_mem segments fade speed segment_data 0 i p hi hp
    simpa using this
  · intro h0 h1 hexact
    subst h0; subst h1
    rw [outTime, segOffset_zero]
    rw [zero_add, div_one]
    exact hexact
  · intro h0 h2 hexact
    subst h0; subst h2
    rw [outTime, segOffset_zero]
    rw [zero_add]
    exact hexact

/-- Witness for C2 at a concrete input. -/
theorem mapper_time_formula_witness :
    (0 < ([[((1:ℚ)/2, (1:ℚ)/4)]] : List (List Pt)).length) ∧
      CropKeyframe.mk (outTime [Segment.mk 0 1] 0 1 0 (1/2)) (1/4)
        ∈ map_to_output_timeline [[((1:ℚ)/2, 1/4)]] [Segment.mk 0 1] 0 1 :=
  ⟨by norm_num,
    (mapper_time_formula [[((1:ℚ)/2, 1/4)]] [Segment.mk 0 1] 0 1 0
      ((1:ℚ)/2, (1:ℚ)/4) (by norm_num) (by simp)).1⟩

/-- Squared point-to-segment distances are non-negative. -/
lemma point_line_dist_sq_nonneg (px py ax ay bx by' : ℚ) :
    0 ≤ point_line_dist_sq px py ax ay bx by' := by
  unfold point_line_dist_sq
  dsimp only
  split_ifs <;> positivity

/-- The tracked maximum of the scan loop never decreases. -/
lemma rdpScanGo_fst_le (points : List Pt) (a b : Pt) :
    ∀ (l : List ℕ) (acc : ℚ × ℕ), acc.1 ≤ (rdpScanGo points a b l acc).1 := by
  intro l
  induction l with
  | nil => intro acc; exact le_refl _
  | cons i rest ih =>
      intro acc
      rw [rdpScanGo]
      refine le_trans ?_ (ih _)
      split_ifs with h
      · exact le_of_lt h
      · exact le_refl _

/-- Every index visited by the scan loop has distance at most the final
maximum. -/
lemma rdpScanGo_le_of_mem (points : List Pt) (a b : Pt) :
    ∀ (l : List ℕ) (acc : ℚ × ℕ) (i : ℕ), i ∈ l →
      point_line_dist_sq (points.getD i (0, 0)).1 (points.getD i (0, 0)).2
          a.1 a.2 b.1 b.2
        ≤ (rdpScanGo points a b l acc).1 := by
  intro l
  induction l with
  | nil => intro acc i hi; simp at hi
  | cons j rest ih =>
      intro acc i hi
      rw [rdpScanGo]
      rcases List.mem_cons.1 hi with rfl | hi'
      · refine le_trans ?_ (rdpScanGo_fst_le points a b rest _)
        split_ifs with h
        · exact le_refl _
        · exact le_of_not_lt h
      · exact ih _ i hi'

/-- The scan result is either the initial accumulator or a visited index
realizing the maximum. -/
lemma rdpScanGo_cases (points : List Pt) (a b : Pt) :
    ∀ (l : List ℕ) (acc : ℚ × ℕ),
      rdpScanGo points a b l acc = acc
      ∨ ((rdpScanGo points a b l acc).2 ∈ l
          ∧ point_line_dist_sq
              (points.getD (rdpScanGo points a b l acc).2 (0, 0)).1
              (points.getD (rdpScanGo points a b l acc).2 (0, 0)).2
              a.1 a.2 b.1 b.2
            = (rdpScanGo points a b l acc).1) := by
  intro l
  induction l with
  | nil => intro acc; exact Or.inl rfl
  | cons j rest ih =>
      intro acc
      rw [rdpScanGo]
      split_ifs with hd
      · rcases ih (point_line_dist_sq (points.getD j (0, 0)).1
            (points.getD j (0, 0)).2 a.1 a.2 b.1 b.2, j) with h | h
        · refine Or.inr ?_
          rw [h]
          exact ⟨List.mem_cons_self j rest, rfl⟩
        · exact Or.inr ⟨List.mem_cons_of_mem j h.1, h.2⟩
      · rcases ih acc with h | h
        · exact Or.inl h
        · exact Or.inr ⟨List.mem_cons_of_mem j h.1, h.2⟩

/-- Specification of `rdpScan`: the maximum is non-negative, bounds every
interior distance, and when positive is realized at an interior index. -/
lemma rdpScan_spec (points : List Pt) (a b : Pt) :
    0 ≤ (rdpScan points a b).1
    ∧ (∀ i, 1 ≤ i → i ≤ points.length - 2 →
        point_line_dist_sq (points.getD i (0, 0)).1 (points.getD i (0, 0)).2
            a.1 a.2 b.1 b.2
          ≤ (rdpScan points a b).1)
    ∧ (0 < (rdpScan points a b).1 →
        1 ≤ (rdpScan points a b).2
          ∧ (rdpScan points a b).2 ≤ points.length - 2) := by
  refine ⟨?_, ?_, ?_⟩
  · exact rdpScanGo_fst_le points a b _ (0, 0)
  · intro i h1 h2
    refine rdpScanGo_le_of_mem points a b _ (0, 0) i ?_
    rw [List.mem_range']
    exact ⟨i - 1, by omega, by omega⟩
  · intro hpos
    rcases rdpScanGo_cases points a b (List.range' 1 (points.length - 2))
        (0, 0) with h | h
    · rw [rdpScan] at hpos
      rw [h] at hpos
      exact absurd hpos (by norm_num)
    · rw [rdpScan]
      obtain ⟨k, hk, hr⟩ := List.mem_range'.1 h.1
      omega

/-- Unfolding of the recursive case of `rdpFuel` (definitional). -/
lemma rdpFuel_succ (n : ℕ) (pts : List Pt) (eps : ℚ) :
    rdpFuel (n+1) pts eps =
      if pts.length ≤ 2 then some pts
      else
        if eps < 0 ∨ (rdpScan pts (pts.headD (0,0)) (pts.getLastD (0,0))).1
            > eps ^ 2 then
          match rdpFuel n (pts.take
              ((rdpScan pts (pts.headD (0,0)) (pts.getLastD (0,0))).2 + 1)) eps,
            rdpFuel n (pts.drop
              ((rdpScan pts (pts.headD (0,0)) (pts.getLastD (0,0))).2)) eps with
          | some left, some right => some (left.dropLast ++ right)
          | _, _ => none
        else some [pts.headD (0,0), pts.getLastD (0,0)] := rfl

/-- The scan index is `0` or a genuine interior index. -/
lemma rdpScan_snd_bound (points : List Pt) (a b : Pt) :
    (rdpScan points a b).2 = 0
    ∨ (1 ≤ (rdpScan points a b).2
        ∧ (rdpScan points a b).2 ≤ points.length - 2) := by
  rcases rdpScanGo_cases points a b (List.range' 1 (points.length - 2))
      (0, 0) with h | h
  · rw [rdpScan, h]
    exact Or.inl rfl
  · obtain ⟨k, hk, hr⟩ := List.mem_range'.1 h.1
    rw [rdpScan]
    exact Or.inr (by omega)

/-- Dropping the last element of a sublist of `A ++ [x]` gives a sublist
of `A`. -/
lemma dropLast_sublist_concat {l A : List Pt} {x : Pt}
    (h : l.Sublist (A ++ [x])) : l.dropLast.Sublist A := by
  rcases List.sublist_append_iff.1 h with ⟨l₁, l₂, rfl, h₁, h₂⟩
  rcases List.sublist_cons_iff.1 h₂ with h' | ⟨r, rfl, hr⟩
  · rw [List.sublist_nil.1 h', List.append_nil]
    exact List.Sublist.trans (List.dropLast_sublist l₁) h₁
  · rw [List.sublist_nil.1 hr, List.dropLast_concat]
    exact h₁

lemma headD_append_of_ne_nil {l₁ l₂ : List Pt} (h : l₁ ≠ []) (d : Pt) :
    (l₁ ++ l₂).headD d = l₁.headD d := by
  cases l₁ with
  | nil => exact absurd rfl h
  | cons a t => simp

lemma getLastD_append_of_ne_nil {l₁ l₂ : List Pt} (h : l₂ ≠ []) (d : Pt) :
    (l₁ ++ l₂).getLastD d = l₂.getLastD d := by
  rw [List.getLastD_eq_getLast?, List.getLastD_eq_getLast?,
    List.getLast?_append]
  rcases Option.isSome_iff_exists.1 (List.getLast?_isSome.2 h) with ⟨y, hy⟩
  rw [hy]
  rfl

lemma headD_dropLast_of_two {l : List Pt} (h : 2 ≤ l.length) (d : Pt) :
    l.dropLast.headD d = l.headD d := by
  rw [List.headD_eq_head?_getD, List.head?_dropLast, if_pos (by omega),
    ← List.headD_eq_head?_getD]

lemma headD_drop {l : List Pt} {k : ℕ} (hk : k < l.length) (d : Pt) :
    (l.drop k).headD d = l.get ⟨k, hk⟩ := by
  rw [List.headD_eq_head?_getD, List.head?_drop,
    List.getElem?_eq_getElem hk]
  rfl

lemma getLastD_drop {l : List Pt} {k : ℕ} (h : l.drop k ≠ []) (d : Pt) :
    (l.drop k).getLastD d = l.getLastD d := by
  conv_rhs => rw [← List.take_append_drop k l]
  rw [getLastD_append_of_ne_nil h]

lemma take_succ_getElem (l : List Pt) (k : ℕ) (hk : k < l.length) :
    l.take (k+1) = l.take k ++ [l.get ⟨k, hk⟩] := by
  rw [List.take_succ, List.getElem?_eq_getElem hk]
  rfl

lemma headD_take_succ (l : List Pt) (k : ℕ) (d : Pt) :
    (l.take (k+1)).headD d = l.headD d := by
  cases l with
  | nil => rfl
  | cons a t => simp

/-- Shape invariant of `_rdp`: whatever the epsilon, a *returned* result
is a subsequence of the input sharing its first and last points, and has
at least two points whenever the input does. -/
lemma rdpFuel_shape : ∀ (fuel : ℕ) (pts : List Pt) (eps : ℚ)
    (out : List Pt), rdpFuel fuel pts eps = some out →
    out.Sublist pts
    ∧ out.headD (0,0) = pts.headD (0,0)
    ∧ out.getLastD (0,0) = pts.getLastD (0,0)
    ∧ (2 ≤ pts.length → 2 ≤ out.length)
    ∧ (pts = [] → out = []) := by
  intro fuel
  induction fuel with
  | zero => intro pts eps out h; exact absurd h (by simp [rdpFuel])
  | succ n ih =>
      intro pts eps out h
      rw [rdpFuel_succ] at h
      split_ifs at h with hlen hguard
      · -- short input returned unchanged
        obtain rfl : pts = out := by simpa using h
        exact ⟨List.Sublist.refl _, rfl, rfl, fun h2 => h2, fun h0 => h0⟩
      · -- recursive case
        rcases hL : rdpFuel n (pts.take
            ((rdpScan pts (pts.headD (0,0)) (pts.getLastD (0,0))).2 + 1)) eps
          with _ | left
        · rw [hL] at h; exact absurd h (by simp)
        rcases hR : rdpFuel n (pts.drop
            ((rdpScan pts (pts.headD (0,0)) (pts.getLastD (0,0))).2)) eps
          with _ | right
        · rw [hL, hR] at h; exact absurd h (by simp)
        rw [hL, hR] at h
        obtain rfl : left.dropLast ++ right = out := by simpa using h
        have hlen3 : 3 ≤ pts.length := by omega
        obtain ⟨sL, hdL, glL, lnL, _⟩ := ih _ _ _ hL
        obtain ⟨sR, hdR, glR, lnR, _⟩ := ih _ _ _ hR
        rcases rdpScan_snd_bound pts (pts.headD (0,0)) (pts.getLastD (0,0))
          with hk0 | ⟨hk1, hk2⟩
        · -- degenerate split at index 0: the left part is at most a
          -- singleton, so the result is exactly the right recursion on
          -- the whole list
          rw [hk0] at hL sL hdL glL lnL
          rw [hk0] at hR sR hdR glR lnR
          rw [List.drop_zero] at sR hdR glR lnR
          have hL1 : left.length ≤ 1 :=
            le_trans sL.length_le (by simp)
          have hdrop : left.dropLast = [] := by
            cases left with
            | nil => rfl
            | cons a t =>
                cases t with
                | nil => rfl
                | cons b u => simp at hL1
          rw [hdrop, List.nil_append]
          exact ⟨sR, hdR, glR, lnR, fun h0 => by simp [h0] at hlen3⟩
        · -- genuine interior split index k
          set k := (rdpScan pts (pts.headD (0,0)) (pts.getLastD (0,0))).2
            with hkdef
          have hklt : k < pts.length := by omega
          have htake : pts.take (k+1) = pts.take k ++ [pts.get ⟨k, hklt⟩] :=
            take_succ_getElem pts k hklt
          have hlenTake : (pts.take (k+1)).length = k + 1 := by
            rw [List.length_take]; omega
          have hlenDrop : (pts.drop k).length = pts.length - k := by
            rw [List.length_drop]
          have hL2 : 2 ≤ left.length := lnL (by omega)
          have hR2 : 2 ≤ right.length := lnR (by omega)
          have hLne : left ≠ [] := by
            intro h0; rw [h0] at hL2; simp at hL2
          have hRne : right ≠ [] := by
            intro h0; rw [h0] at hR2; simp at hR2
          refine ⟨?_, ?_, ?_, ?_, ?_⟩
          · -- sublist
            have h1 : left.dropLast.Sublist (pts.take k) := by
              refine dropLast_sublist_concat (x := pts.get ⟨k, hklt⟩) ?_
              rw [← htake]
              exact sL
            have h3 : (left.dropLast ++ right).Sublist
                (pts.take k ++ pts.drop k) := h1.append sR
            rw [List.take_append_drop] at h3
            exact h3
          · have hdne : left.dropLast ≠ [] := by
              intro h0
              have := congrArg List.length h0
              rw [List.length_dropLast] at this
              simp at this
              omega
            rw [headD_append_of_ne_nil hdne, headD_dropLast_of_two hL2, hdL,
              headD_take_succ]
          · rw [getLastD_append_of_ne_nil hRne, glR, getLastD_drop]
            intro h0
            have := congrArg List.length h0
            rw [hlenDrop] at this
            simp at this
            omega
          · intro _
            rw [List.length_append]
            omega
          · intro h0
            rw [h0] at hlen3
            simp at hlen3
      · -- collapse case: the endpoints are returned
        obtain rfl : [pts.headD (0,0), pts.getLastD (0,0)] = out := by
          simpa using h
        cases pts with
        | nil => simp at hlen
        | cons p rest =>
            cases rest with
            | nil => simp at hlen
            | cons q u =>
                refine ⟨?_, rfl, ?_, ?_, ?_⟩
                · show ((p :: q :: u).headD (0,0)
                      :: [(p :: q :: u).getLastD (0,0)]).Sublist (p :: q :: u)
                  rw [List.headD_cons]
                  refine List.cons_sublist_cons.2 ?_
                  rw [List.singleton_sublist, List.getLastD_cons,
                    List.getLastD_cons]
                  exact List.getLastD_mem_cons u q
                · simp [List.getLastD_cons]
                · intro _
                  simp
                · intro h0
                  simp at h0

/-- Peeling the head of a polyline with at least one more edge. -/
lemma distSqToPolyline_cons_two {w : List Pt} (p a : Pt) (h : 2 ≤ w.length) :
    distSqToPolyline p (a :: w)
      = min (point_line_dist_sq p.1 p.2 a.1 a.2 (w.headD (0,0)).1
          (w.headD (0,0)).2)
        (distSqToPolyline p w) := by
  rcases w with _ | ⟨b, _ | ⟨c, rest⟩⟩
  · simp at h
  · simp at h
  · rfl

/-- Extending a polyline on the right cannot increase the distance to it. -/
lemma distSqToPolyline_append_right (p : Pt) :
    ∀ (l ext : List Pt), 2 ≤ l.length →
      distSqToPolyline p (l ++ ext) ≤ distSqToPolyline p l := by
  intro l
  induction l with
  | nil => intro ext h; simp at h
  | cons a t iht =>
      intro ext h
      rcases t with _ | ⟨b, u⟩
      · simp at h
      rcases u with _ | ⟨c, v⟩
      · -- two-point polyline [a, b]
        rcases ext with _ | ⟨e, ext'⟩
        · rw [List.append_nil]
        · exact min_le_left _ _
      · -- at least three points
        have hlen : 2 ≤ ((b :: c :: v) ++ ext).length := by
          rw [List.length_append]
          simp only [List.length_cons]
          omega
        rw [show (a :: b :: c :: v) ++ ext = a :: ((b :: c :: v) ++ ext)
            from rfl]
        rw [distSqToPolyline_cons_two p a hlen]
        rw [distSqToPolyline_cons_two p a (by simp)]
        have hhead : ((b :: c :: v) ++ ext).headD (0,0)
            = (b :: c :: v).headD (0,0) := rfl
        rw [hhead]
        exact min_le_min (le_refl _) (iht ext (by simp))

/-- Extending a polyline on the left cannot increase the distance to it. -/
lemma distSqToPolyline_append_left (p : Pt) :
    ∀ (pre l : List Pt), 2 ≤ l.length →
      distSqToPolyline p (pre ++ l) ≤ distSqToPolyline p l := by
  intro pre
  induction pre with
  | nil => intro l _; rw [List.nil_append]
  | cons x pre' ih =>
      intro l hl
      have hlen : 2 ≤ (pre' ++ l).length := by
        rw [List.length_append]
        omega
      rw [show (x :: pre') ++ l = x :: (pre' ++ l) from rfl]
      rw [distSqToPolyline_cons_two p x hlen]
      exact le_trans (min_le_right _ _) (ih l hl)

/-- With `epsilon ≥ 0` the recursion always returns, given fuel beyond
the input length (the recursive indices are then genuinely interior, so
both sublists are strictly shorter). -/
lemma rdpFuel_total : ∀ (fuel : ℕ) (pts : List Pt) (eps : ℚ),
    0 ≤ eps → pts.length < fuel → (rdpFuel fuel pts eps).isSome := by
  intro fuel
  induction fuel with
  | zero => intro pts eps _ h; exact absurd h (Nat.not_lt_zero _)
  | succ n ih =>
      intro pts eps heps hlt
      rw [rdpFuel_succ]
      split_ifs with hlen hguard
      · simp
      · have hfstpos :
            0 < (rdpScan pts (pts.headD (0,0)) (pts.getLastD (0,0))).1 := by
          rcases hguard with h | h
          · linarith
          · have h2 : (0:ℚ) ≤ eps ^ 2 := by positivity
            linarith
        obtain ⟨hk1, hk2⟩ :=
          (rdpScan_spec pts (pts.headD (0,0)) (pts.getLastD (0,0))).2.2
            hfstpos
        have hlt1 : (pts.take
            ((rdpScan pts (pts.headD (0,0)) (pts.getLastD (0,0))).2 + 1)).length
              < n := by
          rw [List.length_take]
          omega
        have hlt2 : (pts.drop
            ((rdpScan pts (pts.headD (0,0)) (pts.getLastD (0,0))).2)).length
              < n := by
          rw [List.length_drop]
          omega
        rcases Option.isSome_iff_exists.1 (ih _ _ heps hlt1) with ⟨left, hL⟩
        rcases Option.isSome_iff_exists.1 (ih _ _ heps hlt2) with ⟨right, hR⟩
        rw [hL, hR]
        simp
      · simp

/-- For a nonempty list, `getLastD` agrees with `getLast`. -/
lemma getLastD_eq_getLast {α : Type} {l : List α} (h : l ≠ []) (d : α) :
    l.getLastD d = l.getLast h := by
  rw [List.getLastD_eq_getLast?, List.getLast?_eq_getLast l h]
  rfl

/-- RDP deviation invariant: whenever the recursion returns, every input
point whose value does not survive lies within `epsilon` (squared
comparison) of the returned polyline. -/
lemma rdpFuel_deviation : ∀ (fuel : ℕ) (pts : List Pt) (eps : ℚ)
    (out : List Pt), 0 ≤ eps → rdpFuel fuel pts eps = some out →
    ∀ p ∈ pts, p ∉ out → distSqToPolyline p out ≤ eps ^ 2 := by
  intro fuel
  induction fuel with
  | zero => intro pts eps out _ h; exact absurd h (by simp [rdpFuel])
  | succ n ih =>
      intro pts eps out heps h
      rw [rdpFuel_succ] at h
      split_ifs at h with hlen hguard
      · obtain rfl : pts = out := by simpa using h
        intro p hp hpo
        exact absurd hp hpo
      · -- recursive case
        rcases hL : rdpFuel n (pts.take
            ((rdpScan pts (pts.headD (0,0)) (pts.getLastD (0,0))).2 + 1)) eps
          with _ | left
        · rw [hL] at h; exact absurd h (by simp)
        rcases hR : rdpFuel n (pts.drop
            ((rdpScan pts (pts.headD (0,0)) (pts.getLastD (0,0))).2)) eps
          with _ | right
        · rw [hL, hR] at h; exact absurd h (by simp)
        rw [hL, hR] at h
        obtain rfl : left.dropLast ++ right = out := by simpa using h
        have hlen3 : 3 ≤ pts.length := by omega
        have hfstpos :
            0 < (rdpScan pts (pts.headD (0,0)) (pts.getLastD (0,0))).1 := by
          rcases hguard with hg | hg
          · linarith
          · have h2 : (0:ℚ) ≤ eps ^ 2 := by positivity
            linarith
        obtain ⟨hk1, hk2⟩ :=
          (rdpScan_spec pts (pts.headD (0,0)) (pts.getLastD (0,0))).2.2
            hfstpos
        set k := (rdpScan pts (pts.headD (0,0)) (pts.getLastD (0,0))).2
          with hkdef
        have hklt : k < pts.length := by omega
        have htake : pts.take (k+1) = pts.take k ++ [pts.get ⟨k, hklt⟩] :=
          take_succ_getElem pts k hklt
        obtain ⟨sL, hdL, glL, lnL, _⟩ := rdpFuel_shape _ _ _ _ hL
        obtain ⟨sR, hdR, glR, lnR, _⟩ := rdpFuel_shape _ _ _ _ hR
        have hL2 : 2 ≤ left.length := by
          refine lnL ?_
          rw [List.length_take]
          omega
        have hR2 : 2 ≤ right.length := by
          refine lnR ?_
          rw [List.length_drop]
          omega
        have hLne : left ≠ [] := by
          intro h0; rw [h0] at hL2; simp at hL2
        have hRne : right ≠ [] := by
          intro h0; rw [h0] at hR2; simp at hR2
        have hlast_left : left.getLastD (0,0) = pts.get ⟨k, hklt⟩ := by
          rw [glL, htake, List.getLastD_concat]
        have hhead_right : right.headD (0,0) = pts.get ⟨k, hklt⟩ := by
          rw [hdR, headD_drop hklt]
        -- the two decompositions of the concatenated output
        obtain ⟨rh, rt, rfl⟩ : ∃ rh rt, right = rh :: rt := by
          cases right with
          | nil => exact absurd rfl hRne
          | cons rh rt => exact ⟨rh, rt, rfl⟩
        have hrh : rh = pts.get ⟨k, hklt⟩ := by simpa using hhead_right
        have hout2 : left.dropLast ++ (rh :: rt) = left ++ rt := by
          conv_rhs => rw [← List.dropLast_concat_getLast hLne]
          rw [List.append_assoc, List.singleton_append]
          have : left.getLast hLne = rh := by
            rw [← getLastD_eq_getLast hLne (0,0), hlast_left, hrh]
          rw [this]
        intro p hp hpo
        have hsplit : p ∈ pts.take (k+1) ∨ p ∈ pts.drop k := by
          rw [← List.take_append_drop k pts] at hp
          rcases List.mem_append.1 hp with h' | h'
          · refine Or.inl ?_
            rw [htake]
            exact List.mem_append_left _ h'
          · exact Or.inr h'
        rcases hsplit with hmem | hmem
        · by_cases hpl : p ∈ left
          · refine absurd ?_ hpo
            rw [hout2]
            exact List.mem_append_left _ hpl
          · have hdev := ih _ _ _ heps hL p hmem hpl
            refine le_trans ?_ hdev
            have := distSqToPolyline_append_right p left rt hL2
            rw [← hout2] at this
            exact this
        · by_cases hpr : p ∈ rh :: rt
          · exact absurd (List.mem_append_right _ hpr) hpo
          · have hdev := ih _ _ _ heps hR p hmem hpr
            refine le_trans ?_ hdev
            exact distSqToPolyline_append_left p left.dropLast (rh :: rt) hR2
      · -- collapse case: every interior point is within the scan maximum
        obtain rfl : [pts.headD (0,0), pts.getLastD (0,0)] = out := by
          simpa using h
        push_neg at hguard
        obtain ⟨-, hfst⟩ := hguard
        intro p hp hpo
        obtain ⟨i, hilt, hig⟩ := List.mem_iff_getElem.1 hp
        have hlen3 : 3 ≤ pts.length := by omega
        have hne : pts ≠ [] := by
          intro h0; rw [h0] at hlen3; simp at hlen3
        have hi0 : i ≠ 0 := by
          intro h0
          subst h0
          refine hpo ?_
          cases pts with
          | nil => exact absurd rfl hne
          | cons x t =>
              rw [← hig]
              simp
        have hiLast : i ≠ pts.length - 1 := by
          intro hlast
          refine hpo ?_
          have hgl : pts[i] = pts.getLast hne := by
            rw [List.getLast_eq_getElem]
            congr 1
          rw [← hig, hgl, ← getLastD_eq_getLast hne (0,0)]
          simp
        have h1i : 1 ≤ i := Nat.one_le_iff_ne_zero.2 hi0
        have h2i : i ≤ pts.length - 2 := by omega
        have hbound := (rdpScan_spec pts (pts.headD (0,0))
          (pts.getLastD (0,0))).2.1 i h1i h2i
        have hgetD : pts.getD i (0,0) = p := by
          rw [List.getD_eq_getElem?_getD, List.getElem?_eq_getElem hilt]
          simpa using hig
        rw [hgetD] at hbound
        have hdstp : distSqToPolyline p [pts.headD (0,0), pts.getLastD (0,0)]
            = point_line_dist_sq p.1 p.2 (pts.headD (0,0)).1
              (pts.headD (0,0)).2 (pts.getLastD (0,0)).1
              (pts.getLastD (0,0)).2 := rfl
        rw [hdstp]
        exact le_trans hbound hfst

/-- C4: for every `epsilon > 0` the simplifier returns, every input point
whose value is discarded lies within `epsilon` of the simplified polyline
(stated on squares: for non-negative quantities, `dist ≤ eps` iff
`dist² ≤ eps²`), and every input of at most 2 points is returned
unchanged. -/
theorem rdp_deviation_bound (pts : List Pt) (eps : ℚ) (heps : 0 < eps) :
    ∃ out, rdp pts eps = some out
      ∧ (∀ p ∈ pts, p ∉ out → distSqToPolyline p out ≤ eps ^ 2)
      ∧ (pts.length ≤ 2 → out = pts) := by
  rcases Option.isSome_iff_exists.1
      (rdpFuel_total (pts.length + 1) pts eps (le_of_lt heps)
        (Nat.lt_succ_self _)) with ⟨out, hout⟩
  refine ⟨out, hout, rdpFuel_deviation _ _ _ _ (le_of_lt heps) hout, ?_⟩
  intro hlen
  have h2 : rdp pts eps = some pts := by
    rw [rdp, rdpFuel_succ, if_pos hlen]
  unfold rdp at h2
  rw [hout] at h2
  exact Option.some.inj h2

/-- Witness for C4 at a concrete input. -/
theorem rdp_deviation_bound_witness :
    (0 : ℚ) < 1/100 ∧
      ∃ out, rdp [((0:ℚ), (0:ℚ)), (1, 0), (2, 0)] (1/100) = some out
        ∧ (∀ p ∈ [((0:ℚ), (0:ℚ)), (1, 0), (2, 0)], p ∉ out →
            distSqToPolyline p out ≤ (1/100) ^ 2)
        ∧ (([((0:ℚ), (0:ℚ)), (1, 0), (2, 0)] : List Pt).length ≤ 2 →
            out = [((0:ℚ), (0:ℚ)), (1, 0), (2, 0)]) :=
  ⟨by norm_num,
    rdp_deviation_bound [((0:ℚ), (0:ℚ)), (1, 0), (2, 0)] (1/100)
      (by norm_num)⟩

/-- C9 (amended: for every `epsilon ≥ 0`; for negative epsilon the Python
recursion can fail to terminate, see the counterexample): on an input of
at least 2 points the simplifier returns an order-preserving subsequence
of the input that keeps the input's first and last points. -/
theorem rdp_endpoints_subsequence (pts : List Pt) (eps : ℚ)
    (h2 : 2 ≤ pts.length) (heps : 0 ≤ eps) :
    ∃ out, rdp pts eps = some out
      ∧ out.Sublist pts
      ∧ out ≠ []
      ∧ out.headD (0,0) = pts.headD (0,0)
      ∧ out.getLastD (0,0) = pts.getLastD (0,0)
      ∧ 2 ≤ out.length := by
  rcases Option.isSome_iff_exists.1
      (rdpFuel_total (pts.length + 1) pts eps heps (Nat.lt_succ_self _))
    with ⟨out, hout⟩
  obtain ⟨hsub, hhd, hgl, hln, _⟩ := rdpFuel_shape _ _ _ _ hout
  have hout2 : 2 ≤ out.length := hln h2
  refine ⟨out, hout, hsub, ?_, hhd, hgl, hout2⟩
  intro h0
  rw [h0] at hout2
  simp at hout2

/-- Witness for C9 at a concrete input. -/
theorem rdp_endpoints_subsequence_witness :
    (2 ≤ ([((0:ℚ), (0:ℚ)), (1, 1), (2, 0)] : List Pt).length
        ∧ (0:ℚ) ≤ 8/1000) ∧
      ∃ out, rdp [((0:ℚ), (0:ℚ)), (1, 1), (2, 0)] (8/1000) = some out
        ∧ out.Sublist [((0:ℚ), (0:ℚ)), (1, 1), (2, 0)]
        ∧ out ≠ []
        ∧ out.headD (0,0)
            = ([((0:ℚ), (0:ℚ)), (1, 1), (2, 0)] : List Pt).headD (0,0)
        ∧ out.getLastD (0,0)
            = ([((0:ℚ), (0:ℚ)), (1, 1), (2, 0)] : List Pt).getLastD (0,0)
        ∧ 2 ≤ out.length :=
  ⟨⟨by norm_num, by norm_num⟩,
    rdp_endpoints_subsequence [((0:ℚ), (0:ℚ)), (1, 1), (2, 0)] (8/1000)
      (by norm_num) (by norm_num)⟩

/-- Half-even rounding fixes integers. -/
lemma rndHalfEven_intCast (m : ℤ) : rndHalfEven (m : ℚ) = m := by
  unfold rndHalfEven
  rw [Int.floor_intCast]
  rw [if_pos]
  push_cast
  linarith

/-- A rational that is an integer multiple of `10^-d` is fixed by
`roundTo d`. -/
lemma roundTo_eq_self_of_int {d : ℕ} {q : ℚ} (m : ℤ)
    (hm : q * 10 ^ d = (m : ℚ)) : roundTo d q = q := by
  rw [roundTo, hm, rndHalfEven_intCast]
  rw [div_eq_iff (by positivity)]
  exact hm.symm

/-- Conversely, a `roundTo d` fixed point is such a multiple. -/
lemma int_of_roundTo_eq {d : ℕ} {q : ℚ} (h : roundTo d q = q) :
    ∃ m : ℤ, q * 10 ^ d = (m : ℚ) := by
  refine ⟨rndHalfEven (q * 10 ^ d), ?_⟩
  have h2 : roundTo d q * (10:ℚ) ^ d = q * 10 ^ d := by rw [h]
  rw [roundTo, div_mul_cancel₀ _ (by positivity : ((10:ℚ) ^ d) ≠ 0)] at h2
  exact h2.symm

/-- Exactness at `d` decimals is preserved by differences. -/
lemma roundTo_sub_exact (d : ℕ) (q1 q2 : ℚ)
    (h1 : roundTo d q1 = q1) (h2 : roundTo d q2 = q2) :
    roundTo d (q1 - q2) = q1 - q2 := by
  obtain ⟨m1, hm1⟩ := int_of_roundTo_eq h1
  obtain ⟨m2, hm2⟩ := int_of_roundTo_eq h2
  refine roundTo_eq_self_of_int (m1 - m2) ?_
  push_cast
  rw [sub_mul, hm1, hm2]

/-- Exactness at `d` decimals implies exactness at `e ≥ d` decimals. -/
lemma roundTo_exact_mono {d e : ℕ} (hde : d ≤ e) {q : ℚ}
    (h : roundTo d q = q) : roundTo e q = q := by
  obtain ⟨m, hm⟩ := int_of_roundTo_eq h
  refine roundTo_eq_self_of_int (m * 10 ^ (e - d)) ?_
  have : (10:ℚ) ^ e = 10 ^ d * 10 ^ (e - d) := by
    rw [← pow_add]
    congr 1
    omega
  rw [this, ← mul_assoc, hm]
  push_cast
  ring

/-- `mkSegs` on an exact, well-separated leading pair emits the pair's
plain interpolation data (all formatting is the identity). -/
lemma mkSegs_cons_eq (k0 k1 : CropKeyframe) (rest : List CropKeyframe)
    (h0t : roundTo 3 k0.time = k0.time) (h1t : roundTo 3 k1.time = k1.time)
    (h0x : roundTo 4 k0.x_norm = k0.x_norm)
    (h1x : roundTo 4 k1.x_norm = k1.x_norm)
    (hgap : k0.time + 1/1000 ≤ k1.time) :
    mkSegs (k0 :: k1 :: rest)
      = ⟨k1.time, k0.x_norm, k1.x_norm - k0.x_norm, k0.time,
          k1.time - k0.time⟩ :: mkSegs (k1 :: rest) := by
  have hdf : roundTo 6 (k1.x_norm - k0.x_norm) = k1.x_norm - k0.x_norm :=
    roundTo_exact_mono (by norm_num) (roundTo_sub_exact 4 _ _ h1x h0x)
  have hdt : roundTo 3 (k1.time - k0.time) = k1.time - k0.time :=
    roundTo_sub_exact 3 _ _ h1t h0t
  rw [mkSegs, if_neg (by linarith)]
  rw [h1t, h0x, hdf, hdt, h0t]

/-- When `t` is below the first pair's right time, the first branch of
the emitted expression fires with the pair's interpolation formula —
whether or not `t` is below the pair's *left* time (linear
extrapolation). -/
lemma nestEval_first (a b : CropKeyframe) (v : List CropKeyframe)
    (lastF half t iw : ℚ)
    (hat : roundTo 3 a.time = a.time) (hbt : roundTo 3 b.time = b.time)
    (hax : roundTo 4 a.x_norm = a.x_norm)
    (hbx : roundTo 4 b.x_norm = b.x_norm)
    (hgap : a.time + 1/1000 ≤ b.time) (htb : t < b.time) :
    nestEval (mkSegs (a :: b :: v)) lastF half t iw
      = (a.x_norm + (b.x_norm - a.x_norm) * (t - a.time)
          / (b.time - a.time)) * iw - half := by
  rw [mkSegs_cons_eq a b v hat hbt hax hbx hgap]
  rw [nestEval, if_pos htb]

/-- When `t` is at or beyond every branch boundary, the final constant
branch is reached. -/
lemma nestEval_ge_all (segs : List SegExpr) (lastF half t iw : ℚ)
    (h : ∀ s ∈ segs, s.tEnd ≤ t) :
    nestEval segs lastF half t iw = roundTo 4 lastF * iw - half := by
  induction segs with
  | nil => rfl
  | cons s rest ih =>
      rw [nestEval, if_neg (not_lt.2 (h s (List.mem_cons_self s rest)))]
      exact ih (fun u hu => h u (List.mem_cons_of_mem s hu))

/-- Along a `1/1000`-separated chain the head time bounds the time of
any designated later element. -/
lemma headD_time_le (a : CropKeyframe) :
    ∀ (pre suf : List CropKeyframe),
      List.Chain' (fun x y => x.time + 1/1000 ≤ y.time) (pre ++ a :: suf) →
      ((pre ++ a :: suf).headD default).time ≤ a.time := by
  intro pre
  induction pre with
  | nil => intro suf _; simp
  | cons w pre' ih =>
      intro suf hchain
      rw [List.cons_append, List.headD_cons]
      have htail : List.Chain' (fun x y => x.time + 1/1000 ≤ y.time)
          (pre' ++ a :: suf) := (List.cons_append w pre' (a :: suf) ▸ hchain).tail
      have hle2 := ih suf htail
      obtain ⟨nx, tl, htl⟩ : ∃ nx tl, pre' ++ a :: suf = nx :: tl := by
        cases pre' with
        | nil => exact ⟨a, suf, rfl⟩
        | cons y u => exact ⟨y, u ++ a :: suf, rfl⟩
      have hrel : w.time + 1/1000 ≤ nx.time := by
        have := List.cons_append w pre' (a :: suf) ▸ hchain
        rw [htl] at this
        exact (List.chain'_cons.1 this).1
      rw [htl, List.headD_cons] at hle2
      linarith

/-- Along a `1/1000`-separated chain the head time bounds the final
keyframe's time. -/
lemma time_le_getLastD :
    ∀ (l : List CropKeyframe) (c : CropKeyframe),
      List.Chain' (fun x y => x.time + 1/1000 ≤ y.time) (c :: l) →
      c.time ≤ ((c :: l).getLastD default).time := by
  intro l
  induction l with
  | nil => intro c _; simp
  | cons d l' ih =>
      intro c hchain
      have h1 : c.time + 1/1000 ≤ d.time := (List.chain'_cons.1 hchain).1
      have h2 := ih d (List.chain'_cons.1 hchain).2
      have hlast : ((c :: d :: l').getLastD default)
          = ((d :: l').getLastD default) := by
        rw [List.getLastD_cons, getLastD_eq_getLast (by simp) c,
          getLastD_eq_getLast (by simp) default]
      rw [hlast]
      linarith

/-- Every emitted branch boundary is at most the last keyframe's time. -/
lemma mkSegs_tEnd_le :
    ∀ (kfs : List CropKeyframe),
      (∀ k ∈ kfs, roundTo 3 k.time = k.time ∧ roundTo 4 k.x_norm = k.x_norm) →
      List.Chain' (fun x y => x.time + 1/1000 ≤ y.time) kfs →
      ∀ s ∈ mkSegs kfs, s.tEnd ≤ (kfs.getLastD default).time := by
  intro kfs
  induction kfs with
  | nil => intro _ _ s hs; simp [mkSegs] at hs
  | cons k0 rest ih =>
      intro hx hchain s hs
      cases rest with
      | nil => simp [mkSegs] at hs
      | cons k1 rest' =>
          have h0 := hx k0 (List.mem_cons_self _ _)
          have h1 := hx k1 (List.mem_cons_of_mem _ (List.mem_cons_self _ _))
          have hgap01 : k0.time + 1/1000 ≤ k1.time :=
            (List.chain'_cons.1 hchain).1
          rw [mkSegs_cons_eq k0 k1 rest' h0.1 h1.1 h0.2 h1.2 hgap01] at hs
          have hlast : ((k0 :: k1 :: rest').getLastD default)
              = ((k1 :: rest').getLastD default) := by
            rw [List.getLastD_cons, getLastD_eq_getLast (by simp) k0,
              getLastD_eq_getLast (by simp) default]
          rcases List.mem_cons.1 hs with rfl | hs'
          · rw [hlast]
            exact time_le_getLastD rest' k1 (List.chain'_cons.1 hchain).2
          · rw [hlast]
            exact ih (fun k hk => hx k (List.mem_cons_of_mem _ hk))
              (List.chain'_cons.1 hchain).2 s hs'

/-- On any interval between consecutive keyframes, the emitted chain
evaluates to that pair's linear interpolation. -/
lemma nestEval_mid :
    ∀ (u : List CropKeyframe) (a b : CropKeyframe) (v : List CropKeyframe)
      (lastF half t iw : ℚ),
      (∀ k ∈ u ++ a :: b :: v,
        roundTo 3 k.time = k.time ∧ roundTo 4 k.x_norm = k.x_norm) →
      List.Chain' (fun x y => x.time + 1/1000 ≤ y.time) (u ++ a :: b :: v) →
      a.time ≤ t → t < b.time →
      nestEval (mkSegs (u ++ a :: b :: v)) lastF half t iw
        = (a.x_norm + (b.x_norm - a.x_norm) * (t - a.time)
            / (b.time - a.time)) * iw - half := by
  intro u
  induction u with
  | nil =>
      intro a b v lastF half t iw hx hgap hta htb
      rw [List.nil_append] at hx hgap ⊢
      have ha := hx a (List.mem_cons_self _ _)
      have hb := hx b (List.mem_cons_of_mem _ (List.mem_cons_self _ _))
      exact nestEval_first a b v lastF half t iw ha.1 hb.1 ha.2 hb.2
        (List.chain'_cons.1 hgap).1 htb
  | cons w u' ih =>
      intro a b v lastF half t iw hx hgap hta htb
      rw [List.cons_append] at hx hgap ⊢
      obtain ⟨nx, tl, htl⟩ : ∃ nx tl, u' ++ a :: b :: v = nx :: tl := by
        cases u' with
        | nil => exact ⟨a, b :: v, rfl⟩
        | cons y u'' => exact ⟨y, u'' ++ a :: b :: v, rfl⟩
      have hw := hx w (List.mem_cons_self _ _)
      have hnx : roundTo 3 nx.time = nx.time ∧ roundTo 4 nx.x_norm = nx.x_norm := by
        refine hx nx ?_
        rw [htl]
        exact List.mem_cons_of_mem _ (List.mem_cons_self _ _)
      have hrel : w.time + 1/1000 ≤ nx.time := by
        have h' := hgap
        rw [htl] at h'
        exact (List.chain'_cons.1 h').1
      have hnxa : nx.time ≤ a.time := by
        have h2 := headD_time_le a u' (b :: v) hgap.tail
        rw [htl, List.headD_cons] at h2
        exact h2
      rw [htl, mkSegs_cons_eq w nx tl hw.1 hnx.1 hw.2 hnx.2 hrel]
      rw [nestEval, if_neg (by push_neg; linarith)]
      rw [← htl]
      exact ih a b v lastF half t iw
        (fun k hk => hx k (List.mem_cons_of_mem _ hk)) hgap.tail hta htb

/-- C6 (amended: between consecutive keyframes `face_x` is the pair's
linear interpolation, and from the last keyframe's time onward it is
constant at the last keyframe's value, as claimed; but *before the first
keyframe's time* the expression linearly extrapolates the first pair
instead of holding the first keyframe's value).  Stated for keyframes
whose times are exact at 3 decimals, pairwise separated by at least
`0.001`, and whose values are exact at 4 decimals, so that the decimal
formatting embedded in the expression text is the identity. -/
theorem crop_expr_piecewise (kfs : List CropKeyframe)
    (k0 k1 : CropKeyframe) (rest : List CropKeyframe) (half t iw : ℚ)
    (hk : kfs = k0 :: k1 :: rest)
    (hx : ∀ k ∈ kfs,
      roundTo 3 k.time = k.time ∧ roundTo 4 k.x_norm = k.x_norm)
    (hgap : List.Chain' (fun x y => x.time + 1/1000 ≤ y.time) kfs) :
    (∀ (u v : List CropKeyframe) (a b : CropKeyframe),
        kfs = u ++ a :: b :: v → a.time ≤ t → t < b.time →
        nestEval (mkSegs kfs) (kfs.getLastD default).x_norm half t iw
          = (a.x_norm + (b.x_norm - a.x_norm) * (t - a.time)
              / (b.time - a.time)) * iw - half)
    ∧ ((kfs.getLastD default).time ≤ t →
        nestEval (mkSegs kfs) (kfs.getLastD default).x_norm half t iw
          = (kfs.getLastD default).x_norm * iw - half)
    ∧ (t < k0.time →
        nestEval (mkSegs kfs) (kfs.getLastD default).x_norm half t iw
          = (k0.x_norm + (k1.x_norm - k0.x_norm) * (t - k0.time)
              / (k1.time - k0.time)) * iw - half) := by
  refine ⟨?_, ?_, ?_⟩
  · intro u v a b hsplit hta htb
    rw [hsplit]
    rw [hsplit] at hx hgap
    exact nestEval_mid u a b v _ half t iw hx hgap hta htb
  · intro ht
    have hlastmem : kfs.getLastD default ∈ kfs := by
      rw [hk, List.getLastD_cons]
      exact List.getLastD_mem_cons _ _
    have hlx := (hx _ hlastmem).2
    rw [nestEval_ge_all _ _ _ _ _ (fun s hs =>
      le_trans (mkSegs_tEnd_le kfs hx hgap s hs) ht), hlx]
  · intro ht
    subst hk
    have h0 := hx k0 (List.mem_cons_self _ _)
    have h1 := hx k1 (List.mem_cons_of_mem _ (List.mem_cons_self _ _))
    have hgap01 : k0.time + 1/1000 ≤ k1.time := (List.chain'_cons.1 hgap).1
    exact nestEval_first k0 k1 rest _ half t iw h0.1 h1.1 h0.2 h1.2 hgap01
      (by linarith)

/-- Witness for C6 at a concrete input: keyframes `(0, 0.3)`, `(2, 0.7)`
at `t = 1` interpolate to `0.5`. -/
theorem crop_expr_piecewise_witness :
    (([⟨0, 3/10⟩, ⟨2, 7/10⟩] : List CropKeyframe)
        = ⟨0, 3/10⟩ :: ⟨2, 7/10⟩ :: []) ∧
      nestEval (mkSegs [⟨0, 3/10⟩, ⟨2, 7/10⟩])
          (([⟨0, 3/10⟩, ⟨2, 7/10⟩] : List CropKeyframe).getLastD
            default).x_norm 200 1 1080
        = ((3:ℚ)/10 + ((7:ℚ)/10 - 3/10) * ((1:ℚ) - 0) / ((2:ℚ) - 0))
            * 1080 - 200 :=
  ⟨rfl,
    (crop_expr_piecewise [⟨0, 3/10⟩, ⟨2, 7/10⟩] ⟨0, 3/10⟩ ⟨2, 7/10⟩ []
      200 1 1080 rfl
      (by
        intro k hk
        rcases List.mem_cons.1 hk with rfl | hk'
        · exact ⟨by norm_num [roundTo, rndHalfEven],
            by norm_num [roundTo, rndHalfEven]⟩
        · rcases List.mem_singleton.1 hk' with rfl
          exact ⟨by norm_num [roundTo, rndHalfEven],
            by norm_num [roundTo, rndHalfEven]⟩)
      (by
        refine List.chain'_pair.2 ?_
        norm_num)).1 [] [] ⟨0, 3/10⟩ ⟨2, 7/10⟩ rfl (by norm_num) (by norm_num)⟩

end FaceTracking
